import Mathlib

/-!
Verification development for the credential-and-quota core of llm-mux:
a shallow embedding of the sharded token-count cache (`util` package) and
the quota-group resolver registry / blocked-state index
(`sdk/cliproxy/auth/quota_group.go`), with theorems about the spec's
testable properties.

Machine integers are modelled as `Nat` with explicit `% 2 ^ 64` where Go
wraps; `time.Time` is modelled as `Nat` (nanoseconds since some origin),
whose zero value `0` plays the role of Go's zero `time.Time`;
`strings.ToLower` is modelled by `Char.toLower` per character, which agrees
with Go on ASCII input (model identifiers and provider names are ASCII).
-/

/-! ## Token cache (`util` package, `token_cache.go`) -/

/-- `numShards = 16` from the source. -/
def numShards : Nat := 16

/-- `maxEntriesPerShard = 64` from the source. -/
def maxEntriesPerShard : Nat := 64

/-- `tokenCacheEntry{hash uint64, tokens int}` from the source. -/
structure tokenCacheEntry where
  hash : Nat
  tokens : Int
deriving DecidableEq, Repr

/-- FNV-1a 64-bit offset basis, as used by Go's `hash/fnv` `New64a`. -/
def fnvOffset64 : Nat := 14695981039346656037

/-- FNV-1a 64-bit prime, as used by Go's `hash/fnv` `New64a`. -/
def fnvPrime64 : Nat := 1099511628211

/-- One byte step of FNV-1a 64: xor the byte in, then multiply by the
prime with 64-bit wraparound. -/
def fnvStep (h b : Nat) : Nat := ((h ^^^ b) * fnvPrime64) % 2 ^ 64

/-- UTF-8 encoding of one character, as Go's `[]byte(s)` produces. -/
def utf8Bytes (c : Char) : List Nat :=
  let n := c.toNat
  if n < 0x80 then [n]
  else if n < 0x800 then [0xC0 + n / 64, 0x80 + n % 64]
  else if n < 0x10000 then
    [0xE0 + n / 4096, 0x80 + n / 64 % 64, 0x80 + n % 64]
  else
    [0xF0 + n / 262144, 0x80 + n / 4096 % 64, 0x80 + n / 64 % 64,
      0x80 + n % 64]

/-- `hashContent`: FNV-1a 64 over the UTF-8 bytes of the string. -/
def hashContent (s : String) : Nat :=
  (s.data.flatMap utf8Bytes).foldl fnvStep fnvOffset64

/-- A shard's entry slice; Go's `tokenCacheShard.entries`. -/
abbrev ShardEntries := List tokenCacheEntry

/-- The update loop inside `TokenCache.Set`: scan for an entry with this
hash and overwrite its token count in place; `none` when no entry
matches (the loop fell through). -/
def shardUpdateExisting (es : ShardEntries) (h : Nat) (t : Int) :
    Option ShardEntries :=
  match es with
  | [] => none
  | e :: rest =>
    if e.hash = h then some ({ e with tokens := t } :: rest)
    else (shardUpdateExisting rest h t).map (e :: ·)

/-- The body of `TokenCache.Set` acting on one shard: overwrite in place
when the hash exists; otherwise evict the front entry when full
(`entries = entries[1:]`), then append at the back. -/
def shardSet (es : ShardEntries) (h : Nat) (t : Int) : ShardEntries :=
  match shardUpdateExisting es h t with
  | some updated => updated
  | none =>
    let es := if maxEntriesPerShard ≤ es.length then es.drop 1 else es
    es ++ [⟨h, t⟩]

/-- The scan loop of `TokenCache.Get` on one shard: first entry whose
hash matches wins; `(0, false)` on miss. -/
def shardGet (es : ShardEntries) (h : Nat) : Int × Bool :=
  match es with
  | [] => (0, false)
  | e :: rest => if e.hash = h then (e.tokens, true) else shardGet rest h

/-- `TokenCache`: a fixed array of `numShards` shards. -/
def TokenCache := Fin numShards → ShardEntries

/-- `NewTokenCache`: every shard starts empty. -/
def NewTokenCache : TokenCache := fun _ => []

/-- Shard selection `tc.shards[hash%numShards]`. -/
def shardIdx (h : Nat) : Fin numShards :=
  ⟨h % numShards, Nat.mod_lt _ (by decide)⟩

/-- `TokenCache.Get`. -/
def TokenCache.Get (tc : TokenCache) (content : String) : Int × Bool :=
  shardGet (tc (shardIdx (hashContent content))) (hashContent content)

/-- `TokenCache.Set`. -/
def TokenCache.Set (tc : TokenCache) (content : String) (tokens : Int) :
    TokenCache :=
  fun i =>
    if i = shardIdx (hashContent content) then
      shardSet (tc i) (hashContent content) tokens
    else tc i

/-- Apply a sequence of `Set` calls in order. -/
def TokenCache.applySets (tc : TokenCache) (ops : List (String × Int)) :
    TokenCache :=
  ops.foldl (fun acc p => acc.Set p.1 p.2) tc

/-! ## Quota groups (`sdk/cliproxy/auth/quota_group.go`) -/

/-- `QuotaGroupResolver func(provider, model string) string`. -/
def QuotaGroupResolver := String → String → String

/-- `strings.ToLower`, modelled per character (agrees with Go on ASCII). -/
def goToLower (s : String) : String := ⟨s.data.map Char.toLower⟩

/-- White-space test of Go's `unicode.IsSpace`, restricted to ASCII. -/
def goIsSpace (c : Char) : Bool :=
  c = ' ' || c = '\t' || c = '\n' || c = '\x0b' || c = '\x0c' || c = '\r'

/-- `strings.TrimSpace`, modelled as trimming ASCII whitespace from both
ends (agrees with Go on ASCII input). -/
def goTrimSpace (s : String) : String :=
  ⟨((s.data.dropWhile goIsSpace).reverse.dropWhile goIsSpace).reverse⟩

/-- The registry's process-wide state: `quotaGroupResolvers` plus the
fast-membership set `quotaGroupProviders`; both maps are keyed by the
normalized provider name and always updated together. -/
structure QuotaRegistry where
  quotaGroupResolvers : String → Option QuotaGroupResolver
  quotaGroupProviders : String → Bool

/-- The registry before any `RegisterQuotaGroupResolver` call: both maps
empty. -/
def emptyQuotaRegistry : QuotaRegistry :=
  ⟨fun _ => none, fun _ => false⟩

/-- `RegisterQuotaGroupResolver`: trim and lower-case the provider, no-op
on empty provider or nil resolver (nil modelled as `none`), otherwise
store the resolver and mark the provider present. -/
def RegisterQuotaGroupResolver (reg : QuotaRegistry) (provider : String)
    (resolver : Option QuotaGroupResolver) : QuotaRegistry :=
  let provider := goToLower (goTrimSpace provider)
  if provider = "" then reg
  else
    match resolver with
    | none => reg
    | some r =>
      ⟨fun k => if k = provider then some r else reg.quotaGroupResolvers k,
       fun k => if k = provider then true else reg.quotaGroupProviders k⟩

/-- `HasQuotaGrouping`: membership in the fast set under the lower-cased
(but not trimmed) provider name. -/
def HasQuotaGrouping (reg : QuotaRegistry) (provider : String) : Bool :=
  reg.quotaGroupProviders (goToLower provider)

/-- `ResolveQuotaGroup`: empty provider or model resolves to `""`; then
look up the resolver under the lower-cased (but not trimmed) provider and
invoke it on `(providerLower, model)`; `""` when none is registered. -/
def ResolveQuotaGroup (reg : QuotaRegistry) (provider model : String) :
    String :=
  if provider = "" ∨ model = "" then ""
  else
    let providerLower := goToLower provider
    match reg.quotaGroupResolvers providerLower with
    | none => ""
    | some resolver => resolver providerLower model

/-- The delimiter test from `extractModelFamily`'s scan loop:
`r == '-' || r == '_' || r == '.'`. -/
def isFamilyDelim (c : Char) : Bool := c = '-' || c = '_' || c = '.'

/-- The scan loop of `extractModelFamily` over the lower-cased rune
sequence: stop before the first delimiter (which yields the prefix so
far — empty when the delimiter is first), or take the whole sequence if
no delimiter occurs. -/
def takeUntilDelim : List Char → List Char
  | [] => []
  | c :: cs => if isFamilyDelim c then [] else c :: takeUntilDelim cs

/-- `extractModelFamily`: lower-case the model, return its prefix up to
(excluding) the first `-`/`_`/`.`; `""` when the model is empty or starts
with a delimiter; the whole lower-cased model when no delimiter occurs. -/
def extractModelFamily (model : String) : String :=
  ⟨takeUntilDelim (goToLower model).data⟩

/-- `AntigravityQuotaGroupResolver`: groups models by family prefix,
ignoring the provider argument. -/
def AntigravityQuotaGroupResolver : QuotaGroupResolver :=
  fun _provider model => extractModelFamily model

/-- `Time`: Go `time.Time` modelled as `Nat`; `0` is the zero time,
`After` is `<` read right-to-left, `IsZero` is `= 0`. -/
abbrev GoTime := Nat

/-- `quotaGroupState`. -/
structure quotaGroupState where
  NextRetryAfter : GoTime
  NextRecoverAt : GoTime
  SourceModel : String
deriving DecidableEq, Repr

/-- `quotaGroupIndex.blockedGroups`: the map from group name to blocked
state (Go's nil map behaves as the empty map for the operations below,
so both are modelled by the function that is `none` everywhere). -/
def quotaGroupIndex := String → Option quotaGroupState

/-- A fresh index: no group blocked. -/
def emptyQuotaGroupIndex : quotaGroupIndex := fun _ => none

/-- `setGroupBlocked`: no-op on the empty group, otherwise insert or
overwrite the group's state unconditionally. -/
def setGroupBlocked (idx : quotaGroupIndex) (group sourceModel : String)
    (nextRetry nextRecover : GoTime) : quotaGroupIndex :=
  if group = "" then idx
  else fun k =>
    if k = group then
      some ⟨nextRetry, nextRecover, sourceModel⟩
    else idx k

/-- `clearGroup`: delete the group's entry. -/
def clearGroup (idx : quotaGroupIndex) (group : String) : quotaGroupIndex :=
  fun k => if k = group then none else idx k

/-- `isGroupBlocked`: returns `(blocked, retryAt)` together with the
index as it stands afterwards (the Go method mutates the map by lazily
deleting an entry whose `NextRetryAfter` is not in the future). -/
def isGroupBlocked (idx : quotaGroupIndex) (group : String)
    (now : GoTime) : Bool × GoTime × quotaGroupIndex :=
  if group = "" then (false, 0, idx)
  else
    match idx group with
    | none => (false, 0, idx)
    | some state =>
      if now < state.NextRetryAfter then
        let next :=
          if ¬state.NextRecoverAt = 0 ∧ now < state.NextRecoverAt ∧
              state.NextRetryAfter < state.NextRecoverAt then
            state.NextRecoverAt
          else state.NextRetryAfter
        (true, next, idx)
      else (false, 0, clearGroup idx group)

/-! ## Helper lemmas -/

/-- The scan loop of `extractModelFamily` keeps the whole rune sequence
when no delimiter occurs in it. -/
theorem takeUntilDelim_of_no_delim (l : List Char)
    (h : ∀ c ∈ l, isFamilyDelim c = false) : takeUntilDelim l = l := by
  induction l with
  | nil => rfl
  | cons c cs ih =>
    simp only [takeUntilDelim, h c (List.mem_cons_self c cs),
      Bool.false_eq_true, if_false, List.cons.injEq, true_and]
    exact ih fun d hd => h d (List.mem_cons_of_mem c hd)

/-- The update loop of `Set` falls through exactly when no entry of the
shard carries the hash. -/
theorem shardUpdateExisting_eq_none_iff (es : ShardEntries) (h : Nat)
    (t : Int) :
    shardUpdateExisting es h t = none ↔
      h ∉ es.map tokenCacheEntry.hash := by
  induction es with
  | nil => simp [shardUpdateExisting]
  | cons e rest ih =>
    by_cases he : e.hash = h
    · simp [shardUpdateExisting, he]
    · simp only [shardUpdateExisting, he, if_false, Option.map_eq_none',
        ih, List.map_cons, List.mem_cons]
      constructor
      · intro hnot hor
        rcases hor with hor | hor
        · exact he hor.symm
        · exact hnot hor
      · intro hnot hmem
        exact hnot (Or.inr hmem)

/-- When the update loop of `Set` finds the hash, the resulting shard has
the same hash sequence and the same length, agrees with the old shard at
every position other than the first match, and carries `⟨h, t⟩` at the
first match. -/
theorem shardUpdateExisting_some_spec (es : ShardEntries) (h : Nat)
    (t : Int) (es2 : ShardEntries)
    (hsome : shardUpdateExisting es h t = some es2) :
    es2.map tokenCacheEntry.hash = es.map tokenCacheEntry.hash ∧
    es2.length = es.length ∧
    (∀ i, i ≠ es.findIdx (fun e => e.hash == h) → es2[i]? = es[i]?) ∧
    es2[es.findIdx (fun e => e.hash == h)]? = some ⟨h, t⟩ := by
  induction es generalizing es2 with
  | nil => simp [shardUpdateExisting] at hsome
  | cons e rest ih =>
    by_cases he : e.hash = h
    · rw [shardUpdateExisting, if_pos he] at hsome
      obtain rfl : ({ e with tokens := t } :: rest) = es2 :=
        Option.some.injEq _ _ ▸ hsome
      have hidx : (e :: rest).findIdx (fun e => e.hash == h) = 0 := by
        simp [List.findIdx_cons, he]
      refine ⟨by simp, by simp, ?_, ?_⟩
      · intro i hi
        rw [hidx] at hi
        match i, hi with
        | i + 1, _ => simp
      · rw [hidx]
        simp [he]
    · rw [shardUpdateExisting, if_neg he] at hsome
      obtain ⟨es2t, hsome2, rfl⟩ := Option.map_eq_some'.mp hsome
      obtain ⟨ihm, ihl, ihp, ihi⟩ := ih es2t hsome2
      have hbe : (e.hash == h) = false := by simpa using he
      have hidx : (e :: rest).findIdx (fun e => e.hash == h) =
          rest.findIdx (fun e => e.hash == h) + 1 := by
        simp [List.findIdx_cons, hbe]
      refine ⟨by simp [ihm], by simp [ihl], ?_, ?_⟩
      · intro i hi
        rw [hidx] at hi
        match i, hi with
        | 0, _ => simp
        | i + 1, hi =>
          have : i ≠ rest.findIdx (fun e => e.hash == h) := by omega
          simp [ihp i this]
      · rw [hidx]
        simpa using ihi

/-- A `Set` whose update loop finds the hash returns the updated entry
slice unchanged otherwise. -/
theorem shardSet_of_update_some (es : ShardEntries) (h : Nat) (t : Int)
    (es2 : ShardEntries) (hsome : shardUpdateExisting es h t = some es2) :
    shardSet es h t = es2 := by
  simp [shardSet, hsome]

/-- After the `Set` loop overwrites the first matching entry, the `Get`
scan returns the new token count. -/
theorem shardGet_shardUpdateExisting (es : ShardEntries) (h : Nat)
    (t : Int) (es2 : ShardEntries)
    (hsome : shardUpdateExisting es h t = some es2) :
    shardGet es2 h = (t, true) := by
  induction es generalizing es2 with
  | nil => simp [shardUpdateExisting] at hsome
  | cons e rest ih =>
    by_cases he : e.hash = h
    · rw [shardUpdateExisting, if_pos he] at hsome
      obtain rfl : ({ e with tokens := t } :: rest) = es2 :=
        Option.some.injEq _ _ ▸ hsome
      simp [shardGet, he]
    · rw [shardUpdateExisting, if_neg he] at hsome
      obtain ⟨es2t, hsome2, rfl⟩ := Option.map_eq_some'.mp hsome
      simp [shardGet, he, ih es2t hsome2]

/-- The `Get` scan misses on a shard none of whose entries carries the
hash. -/
theorem shardGet_of_not_mem (es : ShardEntries) (h : Nat)
    (hnot : h ∉ es.map tokenCacheEntry.hash) : shardGet es h = (0, false) := by
  induction es with
  | nil => rfl
  | cons e rest ih =>
    simp only [List.map_cons, List.mem_cons] at hnot
    push_neg at hnot
    have hne : ¬e.hash = h := fun hh => hnot.1 hh.symm
    simp [shardGet, hne, ih hnot.2]

/-- The `Get` scan skips a leading block of entries that do not carry the
hash. -/
theorem shardGet_append_of_not_mem (es1 es2 : ShardEntries) (h : Nat)
    (hnot : h ∉ es1.map tokenCacheEntry.hash) :
    shardGet (es1 ++ es2) h = shardGet es2 h := by
  induction es1 with
  | nil => rfl
  | cons e rest ih =>
    simp only [List.map_cons, List.mem_cons] at hnot
    push_neg at hnot
    have hne : ¬e.hash = h := fun hh => hnot.1 hh.symm
    simp [shardGet, hne, ih hnot.2]

/-- A `Get` right after a `Set` of the same hash returns the token count
just stored, from any shard contents. -/
theorem shardGet_shardSet_same (es : ShardEntries) (h : Nat) (t : Int) :
    shardGet (shardSet es h t) h = (t, true) := by
  cases hcase : shardUpdateExisting es h t with
  | some es2 =>
    simpa [shardSet, hcase] using
      shardGet_shardUpdateExisting es h t es2 hcase
  | none =>
    have hnot := (shardUpdateExisting_eq_none_iff es h t).mp hcase
    have hpre :
        h ∉ (if maxEntriesPerShard ≤ es.length then es.drop 1
             else es).map tokenCacheEntry.hash := by
      by_cases hfull : maxEntriesPerShard ≤ es.length
      · simp only [hfull, if_true]
        intro hmem
        rw [List.map_drop] at hmem
        exact hnot (List.mem_of_mem_drop hmem)
      · simpa [hfull] using hnot
    simp only [shardSet, hcase]
    rw [shardGet_append_of_not_mem _ _ _ hpre]
    simp [shardGet]

/-- The hash stored by a `Set` is afterwards present in the shard. -/
theorem mem_map_hash_shardSet (es : ShardEntries) (h : Nat) (t : Int) :
    h ∈ (shardSet es h t).map tokenCacheEntry.hash := by
  cases hcase : shardUpdateExisting es h t with
  | some es2 =>
    have hmem : h ∈ es.map tokenCacheEntry.hash := by
      by_contra hnot
      rw [← shardUpdateExisting_eq_none_iff es h t] at hnot
      rw [hcase] at hnot
      exact Option.noConfusion hnot
    have := (shardUpdateExisting_some_spec es h t es2 hcase).1
    simpa [shardSet, hcase, this] using hmem
  | none =>
    simp [shardSet, hcase]

/-- A `Set` preserves hash-distinctness of a shard. -/
theorem shardSet_nodup (es : ShardEntries) (h : Nat) (t : Int)
    (hnd : (es.map tokenCacheEntry.hash).Nodup) :
    ((shardSet es h t).map tokenCacheEntry.hash).Nodup := by
  cases hcase : shardUpdateExisting es h t with
  | some es2 =>
    have := (shardUpdateExisting_some_spec es h t es2 hcase).1
    simpa [shardSet, hcase, this] using hnd
  | none =>
    have hnot := (shardUpdateExisting_eq_none_iff es h t).mp hcase
    simp only [shardSet, hcase]
    by_cases hfull : maxEntriesPerShard ≤ es.length
    · simp only [hfull, if_true, List.map_append]
      rw [List.nodup_append]
      refine ⟨?_, by simp, ?_⟩
      · rw [List.map_drop]
        exact (List.drop_sublist 1 (es.map tokenCacheEntry.hash)).nodup hnd
      · intro a ha hb
        simp only [List.map_cons, List.map_nil, List.mem_singleton] at hb
        subst hb
        rw [List.map_drop] at ha
        exact hnot (List.mem_of_mem_drop ha)
    · simp only [hfull, if_false, List.map_append]
      rw [List.nodup_append]
      refine ⟨hnd, by simp, ?_⟩
      intro a ha hb
      simp only [List.map_cons, List.map_nil, List.mem_singleton] at hb
      subst hb
      exact hnot ha

/-- C6: the family resolver is a pure function (hence deterministic) and
returns exactly "claude", "gemini", "gpt", "o1" and "" on the five
sample model identifiers. -/
theorem extractModelFamily_determinism_examples :
    extractModelFamily "claude-opus-4-5-thinking" = "claude" ∧
    extractModelFamily "gemini-2.5-pro" = "gemini" ∧
    extractModelFamily "gpt-4o" = "gpt" ∧
    extractModelFamily "o1" = "o1" ∧
    extractModelFamily "" = "" := by decide

/-- C2 counterexample: on the model identifier "-foo", which starts with
the delimiter '-', `extractModelFamily` returns "" and not the whole
lower-cased identifier "-foo" that the claim demands. -/
theorem extractModelFamily_leading_delim_counterexample :
    extractModelFamily "-foo" = "" ∧ extractModelFamily "-foo" ≠ "-foo" := by
  decide

/-- C2 (amended): a model identifier that starts with one of the
delimiters '-', '_', '.' resolves to the empty family "" (no group),
unlike a delimiter-free identifier, which resolves to the whole
lower-cased identifier. -/
theorem extractModelFamily_leading_delim :
    (∀ (c : Char) (cs : List Char), isFamilyDelim c.toLower = true →
        extractModelFamily ⟨c :: cs⟩ = "") ∧
    (∀ m : String, (∀ c ∈ m.data, isFamilyDelim c.toLower = false) →
        extractModelFamily m = goToLower m) := by
  constructor
  · intro c cs h
    simp [extractModelFamily, goToLower, takeUntilDelim, h]
  · intro m h
    show String.mk (takeUntilDelim ((goToLower m).data)) = goToLower m
    have : takeUntilDelim ((goToLower m).data) = (goToLower m).data := by
      refine takeUntilDelim_of_no_delim _ ?_
      intro c hc
      simp only [goToLower, List.mem_map] at hc
      obtain ⟨d, hd, rfl⟩ := hc
      exact h d hd
    rw [this]

/-- Witness for C2's amended theorem at the concrete inputs "-foo" and
"o1". -/
theorem extractModelFamily_leading_delim_witness :
    extractModelFamily ⟨'-' :: ['f', 'o', 'o']⟩ = "" ∧
    extractModelFamily "o1" = goToLower "o1" :=
  ⟨extractModelFamily_leading_delim.1 '-' ['f', 'o', 'o'] (by decide),
   extractModelFamily_leading_delim.2 "o1" (by decide)⟩

/-- C1 counterexample: after `setGroupBlocked("g","m", t+5, t+60)` with
`t = 0`, `isGroupBlocked("g", t+30)` returns `(false, zero)` — the group
is already unblocked — and not the `(true, t+60)` the claim demands. -/
theorem recoverAt_dominance_counterexample :
    ((isGroupBlocked
        (setGroupBlocked emptyQuotaGroupIndex "g" "m" (0 + 5) (0 + 60))
        "g" (0 + 30)).1,
      (isGroupBlocked
        (setGroupBlocked emptyQuotaGroupIndex "g" "m" (0 + 5) (0 + 60))
        "g" (0 + 30)).2.1) = (false, 0) ∧
    ¬(((isGroupBlocked
        (setGroupBlocked emptyQuotaGroupIndex "g" "m" (0 + 5) (0 + 60))
        "g" (0 + 30)).1,
      (isGroupBlocked
        (setGroupBlocked emptyQuotaGroupIndex "g" "m" (0 + 5) (0 + 60))
        "g" (0 + 30)).2.1) = (true, 0 + 60)) := by decide

/-- C1 (amended): blocking is governed by `nextRetryAfter` alone. After
`setGroupBlocked("g","m", t+5, t+60)`, a query at `t+30` (retry hint
elapsed, recover-at still in the future) returns `(false, zero)`; while
the retry hint is still pending (e.g. at `t+3`) the query returns
`(true, t+60)` — only there does the later recover-at timestamp dominate
the reported retry time. -/
theorem recoverAt_reported_only_while_retry_pending (t : Nat) :
    ((isGroupBlocked
        (setGroupBlocked emptyQuotaGroupIndex "g" "m" (t + 5) (t + 60))
        "g" (t + 30)).1 = false ∧
      (isGroupBlocked
        (setGroupBlocked emptyQuotaGroupIndex "g" "m" (t + 5) (t + 60))
        "g" (t + 30)).2.1 = 0) ∧
    ((isGroupBlocked
        (setGroupBlocked emptyQuotaGroupIndex "g" "m" (t + 5) (t + 60))
        "g" (t + 3)).1 = true ∧
      (isGroupBlocked
        (setGroupBlocked emptyQuotaGroupIndex "g" "m" (t + 5) (t + 60))
        "g" (t + 3)).2.1 = t + 60) := by
  have hset :
      setGroupBlocked emptyQuotaGroupIndex "g" "m" (t + 5) (t + 60) "g" =
        some ⟨t + 5, t + 60, "m"⟩ := by
    simp [setGroupBlocked]
  have h30 : ¬(t + 30 < t + 5) := by omega
  have h3 : t + 3 < t + 5 := by omega
  have hz : ¬(t + 60 = 0) := by omega
  have h3r : t + 3 < t + 60 := by omega
  have h5r : t + 5 < t + 60 := by omega
  refine ⟨⟨?_, ?_⟩, ⟨?_, ?_⟩⟩ <;>
    simp [isGroupBlocked, hset, h30, h3, hz, h3r, h5r]

/-- C5: after `setGroupBlocked` followed by `clearGroup` on the same
group, `isGroupBlocked` returns `(false, zero)` for every starting
index, every source model, all stored timestamps and every query time. -/
theorem quota_clear_semantics (idx : quotaGroupIndex) (g src : String)
    (tr tc now : Nat) :
    (isGroupBlocked (clearGroup (setGroupBlocked idx g src tr tc) g)
      g now).1 = false ∧
    (isGroupBlocked (clearGroup (setGroupBlocked idx g src tr tc) g)
      g now).2.1 = 0 := by
  by_cases hg : g = ""
  · subst hg; simp [isGroupBlocked]
  · simp [isGroupBlocked, clearGroup, hg]

/-- Apply a sequence of `RegisterQuotaGroupResolver` calls in order
(starting, in the program, from the empty registry at process start). -/
def applyRegisters (reg : QuotaRegistry)
    (ops : List (String × Option QuotaGroupResolver)) : QuotaRegistry :=
  ops.foldl (fun acc p => RegisterQuotaGroupResolver acc p.1 p.2) reg

/-- Registration never touches a key other than the normalized provider
name of some call: a key absent from both maps stays absent. -/
theorem applyRegisters_preserves_absent
    (ops : List (String × Option QuotaGroupResolver))
    (reg : QuotaRegistry) (key : String)
    (h1 : reg.quotaGroupResolvers key = none)
    (h2 : reg.quotaGroupProviders key = false)
    (hp : ∀ q ∈ ops, goToLower (goTrimSpace q.1) ≠ key) :
    (applyRegisters reg ops).quotaGroupResolvers key = none ∧
    (applyRegisters reg ops).quotaGroupProviders key = false := by
  induction ops generalizing reg with
  | nil => exact ⟨h1, h2⟩
  | cons q rest ih =>
    have hq : goToLower (goTrimSpace q.1) ≠ key :=
      hp q (List.mem_cons_self q rest)
    have hrest : ∀ r ∈ rest, goToLower (goTrimSpace r.1) ≠ key :=
      fun r hr => hp r (List.mem_cons_of_mem q hr)
    have hstep :
        (RegisterQuotaGroupResolver reg q.1 q.2).quotaGroupResolvers key =
          none ∧
        (RegisterQuotaGroupResolver reg q.1 q.2).quotaGroupProviders key =
          false := by
      unfold RegisterQuotaGroupResolver
      by_cases he : goToLower (goTrimSpace q.1) = ""
      · simp [he, h1, h2]
      · cases q.2 with
        | none => simp [he, h1, h2]
        | some r =>
          simp only [he, if_false]
          exact ⟨by simp [Ne.symm hq, h1], by simp [Ne.symm hq, h2]⟩
    exact ih _ hstep.1 hstep.2 hrest

/-- C7: a provider under whose (trimmed, lower-cased) registration key no
`RegisterQuotaGroupResolver` call was ever made has no quota grouping:
`HasQuotaGrouping` returns `false` and `ResolveQuotaGroup` returns `""`
for every model. -/
theorem quota_no_grouping_by_default
    (ops : List (String × Option QuotaGroupResolver)) (p : String)
    (hp : ∀ q ∈ ops, goToLower (goTrimSpace q.1) ≠ goToLower p) :
    HasQuotaGrouping (applyRegisters emptyQuotaRegistry ops) p = false ∧
    ∀ m, ResolveQuotaGroup (applyRegisters emptyQuotaRegistry ops) p m =
      "" := by
  obtain ⟨habs1, habs2⟩ :=
    applyRegisters_preserves_absent ops emptyQuotaRegistry (goToLower p)
      rfl rfl hp
  refine ⟨habs2, fun m => ?_⟩
  unfold ResolveQuotaGroup
  by_cases hpm : p = "" ∨ m = ""
  · simp [hpm]
  · simp only [hpm, if_false]
    simp [habs1]

/-- Witness for C7 at the concrete registration sequence of the process
(`init` registers "antigravity") and the never-registered provider
"qwen". -/
theorem quota_no_grouping_by_default_witness :
    HasQuotaGrouping
      (applyRegisters emptyQuotaRegistry
        [("antigravity", some AntigravityQuotaGroupResolver)]) "qwen" =
      false ∧
    ResolveQuotaGroup
      (applyRegisters emptyQuotaRegistry
        [("antigravity", some AntigravityQuotaGroupResolver)]) "qwen"
      "qwen-max" = "" := by
  have H :=
    quota_no_grouping_by_default
      [("antigravity", some AntigravityQuotaGroupResolver)] "qwen"
      (by intro q hq; simp only [List.mem_singleton] at hq; subst hq; decide)
  exact ⟨H.1, H.2 "qwen-max"⟩

/-- C9: registration and lookup normalize asymmetrically. After
registering resolver `r` under provider " P " (stored key "p", trimmed
and lower-cased), lookups succeed for "p" (`HasQuotaGrouping` is `true`
and `ResolveQuotaGroup` invokes `r`), while `HasQuotaGrouping " p "` is
`false` and `ResolveQuotaGroup " p " m` is `""` for every model `m`,
because lookups lower-case but do not trim. -/
theorem quota_register_normalization_asymmetry (r : QuotaGroupResolver) :
    HasQuotaGrouping
      (RegisterQuotaGroupResolver emptyQuotaRegistry " P " (some r)) "p" =
      true ∧
    HasQuotaGrouping
      (RegisterQuotaGroupResolver emptyQuotaRegistry " P " (some r))
      " p " = false ∧
    (∀ m, ResolveQuotaGroup
      (RegisterQuotaGroupResolver emptyQuotaRegistry " P " (some r))
      " p " m = "") ∧
    (∀ m, m ≠ "" → ResolveQuotaGroup
      (RegisterQuotaGroupResolver emptyQuotaRegistry " P " (some r))
      "p" m = r "p" m) := by
  have hkey : goToLower (goTrimSpace " P ") = "p" := by decide
  have hlp : goToLower " p " = " p " := by decide
  have hpp : goToLower "p" = "p" := by decide
  have hne : (" p " : String) ≠ "p" := by decide
  refine ⟨?_, ?_, ?_, ?_⟩
  · simp [HasQuotaGrouping, RegisterQuotaGroupResolver, hkey, hpp]
  · simp [HasQuotaGrouping, RegisterQuotaGroupResolver, hkey,
      emptyQuotaRegistry, hlp, hne]
  · intro m
    unfold ResolveQuotaGroup
    by_cases hm : m = ""
    · simp [hm]
    · simp only [hm, or_false, if_neg (by decide : ¬(" p " : String) = "")]
      simp [RegisterQuotaGroupResolver, hkey, emptyQuotaRegistry, hlp, hne]
  · intro m hm
    unfold ResolveQuotaGroup
    simp only [hm, or_false, if_neg (by decide : ¬("p" : String) = "")]
    simp [RegisterQuotaGroupResolver, hkey, hpp]

/-- Unfolding one step of `applySets`. -/
theorem TokenCache.applySets_cons (tc : TokenCache) (p : String × Int)
    (rest : List (String × Int)) :
    tc.applySets (p :: rest) = (tc.Set p.1 p.2).applySets rest := rfl

/-- A `Set` keeps a shard within the capacity bound. -/
theorem shardSet_length_le (es : ShardEntries) (h : Nat) (t : Int)
    (hlen : es.length ≤ maxEntriesPerShard) :
    (shardSet es h t).length ≤ maxEntriesPerShard := by
  cases hcase : shardUpdateExisting es h t with
  | some es2 =>
    rw [shardSet_of_update_some es h t es2 hcase,
      (shardUpdateExisting_some_spec es h t es2 hcase).2.1]
    exact hlen
  | none =>
    simp only [shardSet, hcase]
    by_cases hfull : maxEntriesPerShard ≤ es.length
    · simp only [hfull, if_true, List.length_append, List.length_drop,
        List.length_cons, List.length_nil]
      simp only [maxEntriesPerShard] at hlen hfull ⊢
      omega
    · simp only [hfull, if_false, List.length_append, List.length_cons,
        List.length_nil]
      simp only [maxEntriesPerShard] at hlen hfull ⊢
      omega

/-- Every shard of a cache within the capacity bound stays within it
under any sequence of `Set` calls. -/
theorem applySets_length_le (ops : List (String × Int)) (tc : TokenCache)
    (htc : ∀ j, (tc j).length ≤ maxEntriesPerShard) (i : Fin numShards) :
    (tc.applySets ops i).length ≤ maxEntriesPerShard := by
  induction ops generalizing tc with
  | nil => exact htc i
  | cons p rest ih =>
    rw [TokenCache.applySets_cons]
    refine ih _ fun j => ?_
    show (if j = shardIdx (hashContent p.1) then
        shardSet (tc j) (hashContent p.1) p.2 else tc j).length ≤
      maxEntriesPerShard
    by_cases hj : j = shardIdx (hashContent p.1)
    · rw [if_pos hj]
      exact shardSet_length_le _ _ _ (htc j)
    · rw [if_neg hj]
      exact htc j

/-- A sequence of `Set`s that all route to shard `k` leaves every other
shard untouched. -/
theorem applySets_shard_other (ops : List (String × Int))
    (tc : TokenCache) (k j : Fin numShards)
    (hops : ∀ p ∈ ops, shardIdx (hashContent p.1) = k) (hj : j ≠ k) :
    tc.applySets ops j = tc j := by
  induction ops generalizing tc with
  | nil => rfl
  | cons p rest ih =>
    rw [TokenCache.applySets_cons,
      ih _ fun q hq => hops q (List.mem_cons_of_mem p hq)]
    show (if j = shardIdx (hashContent p.1) then
        shardSet (tc j) (hashContent p.1) p.2 else tc j) = tc j
    rw [if_neg]
    rw [hops p (List.mem_cons_self p rest)]
    exact hj

/-- A sequence of `Set`s that all route to shard `k` acts on that shard
as the corresponding sequence of shard-level `Set`s. -/
theorem applySets_shard_at (ops : List (String × Int)) (tc : TokenCache)
    (k : Fin numShards)
    (hops : ∀ p ∈ ops, shardIdx (hashContent p.1) = k) :
    tc.applySets ops k =
      ops.foldl (fun es p => shardSet es (hashContent p.1) p.2) (tc k) := by
  induction ops generalizing tc with
  | nil => rfl
  | cons p rest ih =>
    rw [TokenCache.applySets_cons, List.foldl_cons,
      ih _ fun q hq => hops q (List.mem_cons_of_mem p hq)]
    congr 1
    show (if k = shardIdx (hashContent p.1) then
        shardSet (tc k) (hashContent p.1) p.2 else tc k) =
      shardSet (tc k) (hashContent p.1) p.2
    rw [if_pos (hops p (List.mem_cons_self p rest)).symm]

/-- Inserting at most `capacity` contents with pairwise-distinct hashes
into an empty shard stores them all, in insertion order. -/
theorem shardFoldl_map_of_nodup (ops : List (String × Int))
    (hnd : (ops.map fun p => hashContent p.1).Nodup)
    (hlen : ops.length ≤ maxEntriesPerShard) :
    ops.foldl (fun es p => shardSet es (hashContent p.1) p.2) [] =
      ops.map (fun p => (⟨hashContent p.1, p.2⟩ : tokenCacheEntry)) := by
  induction ops using List.reverseRecOn with
  | nil => rfl
  | append_singleton l p ih =>
    rw [List.foldl_append, List.foldl_cons, List.foldl_nil]
    rw [List.map_append] at hnd
    have hndl : (l.map fun p => hashContent p.1).Nodup :=
      hnd.of_append_left
    have hnotmem : hashContent p.1 ∉ l.map fun p => hashContent p.1 := by
      intro hmem
      exact List.disjoint_of_nodup_append hnd hmem (by simp)
    have hlenl : l.length + 1 ≤ maxEntriesPerShard := by simpa using hlen
    rw [ih hndl (by omega)]
    have hnot2 : hashContent p.1 ∉
        (l.map fun q =>
          (⟨hashContent q.1, q.2⟩ : tokenCacheEntry)).map
          tokenCacheEntry.hash := by
      rw [List.map_map]
      exact hnotmem
    have hnone :=
      (shardUpdateExisting_eq_none_iff _ (hashContent p.1) p.2).mpr hnot2
    simp only [shardSet, hnone]
    have hlength : ¬maxEntriesPerShard ≤
        (l.map fun q =>
          (⟨hashContent q.1, q.2⟩ : tokenCacheEntry)).length := by
      rw [List.length_map]
      omega
    rw [if_neg hlength, List.map_append]
    rfl

/-- Inserting `capacity + 1` contents with pairwise-distinct hashes into
an empty shard evicts exactly the first-inserted one and stores the 64
later ones in insertion order. -/
theorem shardFoldl_evict_first (c0 : String × Int)
    (rest : List (String × Int))
    (hnd : ((c0 :: rest).map fun p => hashContent p.1).Nodup)
    (hlen : rest.length = maxEntriesPerShard) :
    (c0 :: rest).foldl (fun es p => shardSet es (hashContent p.1) p.2)
      [] =
      rest.map (fun p => (⟨hashContent p.1, p.2⟩ : tokenCacheEntry)) := by
  rcases rest.eq_nil_or_concat with rfl | ⟨mid, q, rfl⟩
  · simp [maxEntriesPerShard] at hlen
  · rw [List.concat_eq_append] at hnd hlen ⊢
    rw [← List.cons_append, List.foldl_append, List.foldl_cons,
      List.foldl_nil]
    have hlenmid : mid.length + 1 = maxEntriesPerShard := by
      simpa using hlen
    have hndpre : ((c0 :: mid).map fun p => hashContent p.1).Nodup := by
      rw [← List.cons_append, List.map_append] at hnd
      exact hnd.of_append_left
    rw [shardFoldl_map_of_nodup (c0 :: mid) hndpre
      (by simp only [List.length_cons]; omega)]
    have hnotq : hashContent q.1 ∉
        (c0 :: mid).map fun p => hashContent p.1 := by
      rw [← List.cons_append, List.map_append] at hnd
      intro hmem
      exact List.disjoint_of_nodup_append hnd hmem (by simp)
    have hnot2 : hashContent q.1 ∉
        ((c0 :: mid).map fun p =>
          (⟨hashContent p.1, p.2⟩ : tokenCacheEntry)).map
          tokenCacheEntry.hash := by
      rw [List.map_map]
      exact hnotq
    have hnone :=
      (shardUpdateExisting_eq_none_iff _ (hashContent q.1) q.2).mpr hnot2
    simp only [shardSet, hnone]
    have hfull : maxEntriesPerShard ≤
        ((c0 :: mid).map fun p =>
          (⟨hashContent p.1, p.2⟩ : tokenCacheEntry)).length := by
      simp only [List.length_map, List.length_cons]
      omega
    rw [if_pos hfull, List.map_cons, List.map_append]
    rfl

/-- The `Get` scan over the image of a hash-distinct content list finds
each content's own token count. -/
theorem shardGet_map_of_mem (l : List (String × Int)) (p : String × Int)
    (hnd : (l.map fun q => hashContent q.1).Nodup) (hp : p ∈ l) :
    shardGet
      (l.map fun q => (⟨hashContent q.1, q.2⟩ : tokenCacheEntry))
      (hashContent p.1) = (p.2, true) := by
  induction l with
  | nil => cases hp
  | cons q rest ih =>
    rw [List.map_cons] at hnd ⊢
    by_cases hqp : hashContent q.1 = hashContent p.1
    · rcases List.mem_cons.mp hp with rfl | hp2
      · simp [shardGet]
      · exfalso
        refine (List.nodup_cons.mp hnd).1 ?_
        rw [hqp]
        exact List.mem_map_of_mem _ hp2
    · rcases List.mem_cons.mp hp with rfl | hp2
      · exact absurd rfl hqp
      · have hne :
            ¬((⟨hashContent q.1, q.2⟩ : tokenCacheEntry).hash =
              hashContent p.1) := hqp
        simp only [shardGet, hne, if_false]
        exact ih (List.nodup_cons.mp hnd).2 hp2

/-- C10: a `Set` that finds an existing entry with the same hash
overwrites only that entry's token count: the shard's hash sequence (and
hence every entry's FIFO position and the shard's length) is unchanged,
every position other than the first match is unchanged, and the first
match now carries the new token count. -/
theorem tokenCache_set_existing_in_place (es : ShardEntries) (h : Nat)
    (t : Int) (i : Nat) (hmem : h ∈ es.map tokenCacheEntry.hash) :
    (shardSet es h t).map tokenCacheEntry.hash =
      es.map tokenCacheEntry.hash ∧
    (shardSet es h t).length = es.length ∧
    (i ≠ es.findIdx (fun e => e.hash == h) →
      (shardSet es h t)[i]? = es[i]?) ∧
    (shardSet es h t)[es.findIdx (fun e => e.hash == h)]? =
      some ⟨h, t⟩ := by
  obtain ⟨es2, hsome⟩ : ∃ es2, shardUpdateExisting es h t = some es2 := by
    cases hcase : shardUpdateExisting es h t with
    | none =>
      exact absurd ((shardUpdateExisting_eq_none_iff es h t).mp hcase)
        (by simpa using hmem)
    | some es2 => exact ⟨es2, rfl⟩
  obtain ⟨hm, hl, hp, hi⟩ := shardUpdateExisting_some_spec es h t es2 hsome
  have hset : shardSet es h t = es2 := by simp [shardSet, hsome]
  rw [hset]
  exact ⟨hm, hl, fun hne => hp i hne, hi⟩

/-- Witness for C10 at a concrete three-entry shard, refreshing the
middle entry. -/
theorem tokenCache_set_existing_in_place_witness :
    (shardSet [⟨1, 5⟩, ⟨2, 6⟩, ⟨3, 7⟩] 2 9).map tokenCacheEntry.hash =
      ([⟨1, 5⟩, ⟨2, 6⟩, ⟨3, 7⟩] : ShardEntries).map tokenCacheEntry.hash ∧
    (shardSet [⟨1, 5⟩, ⟨2, 6⟩, ⟨3, 7⟩] 2 9).length =
      ([⟨1, 5⟩, ⟨2, 6⟩, ⟨3, 7⟩] : ShardEntries).length ∧
    (0 ≠ ([⟨1, 5⟩, ⟨2, 6⟩, ⟨3, 7⟩] : ShardEntries).findIdx
        (fun e => e.hash == 2) →
      (shardSet [⟨1, 5⟩, ⟨2, 6⟩, ⟨3, 7⟩] 2 9)[0]? =
        ([⟨1, 5⟩, ⟨2, 6⟩, ⟨3, 7⟩] : ShardEntries)[0]?) ∧
    (shardSet [⟨1, 5⟩, ⟨2, 6⟩, ⟨3, 7⟩] 2 9)[([⟨1, 5⟩, ⟨2, 6⟩, ⟨3, 7⟩] :
        ShardEntries).findIdx (fun e => e.hash == 2)]? = some ⟨2, 9⟩ :=
  tokenCache_set_existing_in_place [⟨1, 5⟩, ⟨2, 6⟩, ⟨3, 7⟩] 2 9 0
    (by decide)

/-- C4: setting the same content twice then reading it back yields the
second token count, and leaves exactly one entry for that content's hash
in its shard, provided the shard's hashes were distinct beforehand (as
they are for every cache built by `Set`s from `NewTokenCache`). -/
theorem tokenCache_idempotent_update (tc : TokenCache) (c : String)
    (t1 t2 : Int)
    (hnd : ((tc (shardIdx (hashContent c))).map
      tokenCacheEntry.hash).Nodup) :
    ((tc.Set c t1).Set c t2).Get c = (t2, true) ∧
    (((tc.Set c t1).Set c t2) (shardIdx (hashContent c))).countP
      (fun e => e.hash == hashContent c) = 1 := by
  set h := hashContent c with hh
  have hshard :
      ((tc.Set c t1).Set c t2) (shardIdx h) =
        shardSet (shardSet (tc (shardIdx h)) h t1) h t2 := by
    simp [TokenCache.Set, hh]
  constructor
  · show shardGet (((tc.Set c t1).Set c t2) (shardIdx h)) h = (t2, true)
    rw [hshard]
    exact shardGet_shardSet_same _ h t2
  · rw [hshard]
    have hnd1 : ((shardSet (tc (shardIdx h)) h t1).map
        tokenCacheEntry.hash).Nodup :=
      shardSet_nodup _ h t1 hnd
    have hmem1 : h ∈ (shardSet (tc (shardIdx h)) h t1).map
        tokenCacheEntry.hash :=
      mem_map_hash_shardSet _ h t1
    obtain ⟨es2, hsome⟩ :
        ∃ es2, shardUpdateExisting (shardSet (tc (shardIdx h)) h t1) h t2 =
          some es2 := by
      cases hcase :
          shardUpdateExisting (shardSet (tc (shardIdx h)) h t1) h t2 with
      | none =>
        exact absurd
          ((shardUpdateExisting_eq_none_iff _ h t2).mp hcase)
          (by simpa using hmem1)
      | some es2 => exact ⟨es2, rfl⟩
    have hm := (shardUpdateExisting_some_spec _ h t2 es2 hsome).1
    rw [shardSet_of_update_some _ h t2 es2 hsome]
    calc es2.countP (fun e => e.hash == h)
        = (es2.map tokenCacheEntry.hash).countP (fun x => x == h) := by
          rw [List.countP_map]; rfl
      _ = (es2.map tokenCacheEntry.hash).count h := by
          rw [List.count_eq_countP]
      _ = 1 := by
          rw [hm]
          exact List.count_eq_one_of_mem hnd1 hmem1

/-- C3: starting from a fresh cache, every shard holds at most
`maxEntriesPerShard` entries after any sequence of `Set` calls, and
inserting `maxEntriesPerShard + 1` distinct contents that all route to
one shard (with no hash collisions) evicts exactly the first-inserted
content — it misses on `Get` — while all 64 later ones are still present
with their token counts. -/
theorem tokenCache_bounded_shard_fifo :
    (∀ (ops : List (String × Int)) (i : Fin numShards),
        (NewTokenCache.applySets ops i).length ≤ maxEntriesPerShard) ∧
    (∀ (c0 : String × Int) (rest : List (String × Int)),
        rest.length = maxEntriesPerShard →
        ((c0 :: rest).map fun p => hashContent p.1).Nodup →
        (∀ p ∈ c0 :: rest,
            shardIdx (hashContent p.1) = shardIdx (hashContent c0.1)) →
        (NewTokenCache.applySets (c0 :: rest)).Get c0.1 = (0, false) ∧
        ∀ p ∈ rest,
          (NewTokenCache.applySets (c0 :: rest)).Get p.1 =
            (p.2, true)) := by
  constructor
  · intro ops i
    exact applySets_length_le ops NewTokenCache
      (fun j => by simp [NewTokenCache]) i
  · intro c0 rest hlen hnd hsh
    have hat :
        NewTokenCache.applySets (c0 :: rest)
            (shardIdx (hashContent c0.1)) =
          rest.map
            (fun p => (⟨hashContent p.1, p.2⟩ : tokenCacheEntry)) := by
      rw [applySets_shard_at (c0 :: rest) NewTokenCache
        (shardIdx (hashContent c0.1)) hsh]
      exact shardFoldl_evict_first c0 rest hnd hlen
    rw [List.map_cons] at hnd
    have hnotc0 := (List.nodup_cons.mp hnd).1
    have hndrest := (List.nodup_cons.mp hnd).2
    constructor
    · show shardGet
        (NewTokenCache.applySets (c0 :: rest)
          (shardIdx (hashContent c0.1))) (hashContent c0.1) = (0, false)
      rw [hat]
      apply shardGet_of_not_mem
      rw [List.map_map]
      exact hnotc0
    · intro p hp
      have hpk := hsh p (List.mem_cons_of_mem c0 hp)
      show shardGet
        (NewTokenCache.applySets (c0 :: rest)
          (shardIdx (hashContent p.1))) (hashContent p.1) = (p.2, true)
      rw [hpk, hat]
      exact shardGet_map_of_mem rest p hndrest hp

/-- Concrete inputs for C3's witness: 65 short strings whose FNV-1a
hashes are pairwise distinct and all congruent mod 16, so every `Set`
routes to the same shard. -/
def fifoWitnessRest : List (String × Int) :=
  [("w13", 1), ("w39", 2), ("w40", 3), ("w66", 4), ("w75", 5),
   ("w109", 6), ("w123", 7), ("w134", 8), ("w145", 9), ("w156", 10),
   ("w170", 11), ("w181", 12), ("w192", 13), ("w202", 14), ("w211", 15),
   ("w268", 16), ("w277", 17), ("w299", 18), ("w321", 19), ("w332", 20),
   ("w347", 21), ("w358", 22), ("w383", 23), ("w394", 24), ("w404", 25),
   ("w413", 26), ("w439", 27), ("w440", 28), ("w466", 29), ("w475", 30),
   ("w527", 31), ("w538", 32), ("w541", 33), ("w552", 34), ("w585", 35),
   ("w596", 36), ("w606", 37), ("w615", 38), ("w620", 39), ("w659", 40),
   ("w664", 41), ("w673", 42), ("w710", 43), ("w725", 44), ("w736", 45),
   ("w743", 46), ("w754", 47), ("w769", 48), ("w787", 49), ("w798", 50),
   ("w808", 51), ("w817", 52), ("w862", 53), ("w871", 54), ("w880", 55),
   ("w901", 56), ("w912", 57), ("w967", 58), ("w978", 59), ("w989", 60),
   ("w1021", 61), ("w1032", 62), ("w1047", 63), ("w1058", 64)]

/-- Witness for C3: applying the theorem to the 65 concrete contents
above, the first-inserted content "w0" misses after the 65 `Set`s while
the second-inserted "w13" is present with its count. -/
theorem tokenCache_bounded_shard_fifo_witness :
    (NewTokenCache.applySets [("w13", 1)] (⟨0, by decide⟩ : Fin numShards)).length ≤
      maxEntriesPerShard ∧
    (NewTokenCache.applySets (("w0", 0) :: fifoWitnessRest)).Get "w0" =
      (0, false) ∧
    (NewTokenCache.applySets (("w0", 0) :: fifoWitnessRest)).Get "w13" =
      (1, true) := by
  have H2 := tokenCache_bounded_shard_fifo.2 ("w0", 0) fifoWitnessRest
    (by decide) (by decide) (by decide)
  exact ⟨tokenCache_bounded_shard_fifo.1 [("w13", 1)] (⟨0, by decide⟩ : Fin numShards),
    H2.1, H2.2 ("w13", 1) (by decide)⟩

/-- Witness for C4 on the empty cache with content "hello" and token
counts 3 and 7. -/
theorem tokenCache_idempotent_update_witness :
    ((NewTokenCache.Set "hello" 3).Set "hello" 7).Get "hello" =
      (7, true) ∧
    (((NewTokenCache.Set "hello" 3).Set "hello" 7)
      (shardIdx (hashContent "hello"))).countP
      (fun e => e.hash == hashContent "hello") = 1 :=
  tokenCache_idempotent_update NewTokenCache "hello" 3 7 (by decide)

/-- Witness for C9 at the concrete resolver
`AntigravityQuotaGroupResolver` and model "gpt-4o". -/
theorem quota_register_normalization_asymmetry_witness :
    HasQuotaGrouping
      (RegisterQuotaGroupResolver emptyQuotaRegistry " P "
        (some AntigravityQuotaGroupResolver)) "p" = true ∧
    ResolveQuotaGroup
      (RegisterQuotaGroupResolver emptyQuotaRegistry " P "
        (some AntigravityQuotaGroupResolver)) " p " "gpt-4o" = "" ∧
    ResolveQuotaGroup
      (RegisterQuotaGroupResolver emptyQuotaRegistry " P "
        (some AntigravityQuotaGroupResolver)) "p" "gpt-4o" =
      AntigravityQuotaGroupResolver "p" "gpt-4o" := by
  have H :=
    quota_register_normalization_asymmetry AntigravityQuotaGroupResolver
  exact ⟨H.1, H.2.2.1 "gpt-4o", H.2.2.2 "gpt-4o" (by decide)⟩
